import Mathlib

/-!
Verification of the hybrid PDF text-extraction pipeline in src/main.py.

The code is shallowly embedded: Python strings are Lean Strings (lists of
characters), Python dicts are association lists with unique keys in insertion
order, and the two external providers (pdfplumber's layout capabilities and
the pytesseract OCR capability) are modelled as oracle fields carried by each
page. Behaviour attributed to a line of main.py is noted next to each
definition.
-/

-- ---------------------------------------------------------------------------
-- Python dict model: association list, unique keys, insertion order.
-- ---------------------------------------------------------------------------

-- Lookup d[k] as an Option, first matching key (keys are unique in practice).
def dget {α : Type} (d : List (String × α)) (k : String) : Option α :=
  (d.find? (fun kv => decide (kv.1 = k))).map (fun kv => kv.2)

-- Assignment d[k] = v: overwrite in place if the key exists, else append.
def dinsert {α : Type} (d : List (String × α)) (k : String) (v : α) :
    List (String × α) :=
  if (d.find? (fun kv => decide (kv.1 = k))).isSome then
    d.map (fun kv => if kv.1 = k then (k, v) else kv)
  else d ++ [(k, v)]

-- base.update(extra) as in line 111: existing keys keep their position but
-- take the value from extra when present there; new keys of extra follow.
def dupdate {α : Type} (base extra : List (String × α)) : List (String × α) :=
  base.map (fun kv => (kv.1, (dget extra kv.1).getD kv.2)) ++
    extra.filter (fun kv => (dget base kv.1).isNone)

-- ---------------------------------------------------------------------------
-- Character and string helpers (Python str methods used by main.py).
-- ---------------------------------------------------------------------------

-- Python str.strip() whitespace set, restricted to the characters that can
-- occur in this pipeline's strings.
def pyWs (c : Char) : Bool := decide (c = ' ' ∨ c = '\t' ∨ c = '\n' ∨ c = '\r')

-- Horizontal whitespace (space and tab), used for within-line stripping.
def isHSp (c : Char) : Bool := decide (c = ' ' ∨ c = '\t')

-- Drop the longest run of p-characters from the right end.
def dropTrailP {α : Type} (p : α → Bool) (l : List α) : List α :=
  (l.reverse.dropWhile p).reverse

-- Python str.strip() on a character list.
def stripChars (l : List Char) : List Char :=
  dropTrailP pyWs (l.dropWhile pyWs)

-- Python str.strip().
def pstrip (s : String) : String := String.mk (stripChars s.data)

-- Python str.lower() (ASCII model).
def lowerStr (s : String) : String := String.mk (s.data.map Char.toLower)

-- Python str.replace of a newline by a space, as in lines 117 and 124.
def replNL (s : String) : String :=
  String.mk (s.data.map (fun c => if c = '\n' then ' ' else c))

-- Python truthiness of an optional string (None and the empty string are
-- falsy, any other string is truthy).
def truthy : Option String → Bool
  | none => false
  | some s => decide (s ≠ "")

def optFalsy : Option String → Bool
  | none => true
  | some s => decide (s = "")

-- ---------------------------------------------------------------------------
-- Data model: pages with oracle fields for the two external providers.
-- ---------------------------------------------------------------------------

-- Value type of table-settings dicts (pdfplumber accepts strings and numbers).
inductive SettingVal where
  | str (s : String)
  | int (n : Int)
deriving DecidableEq

-- A raw table from pdfplumber page.extract_tables: rows of nullable cells.
abbrev RawTable := List (List (Option String))

-- Outcome of the OCR step for one page, had it been invoked: the combined
-- convert_from_bytes plus image_to_string call of lines 68-70 either raises
-- (modelled without the exception payload, which is only printed), returns no
-- image (convert_from_bytes yields an empty list, leaving page_text as it
-- was), or returns the recognized text.
inductive OcrStep where
  | raises
  | images (result : Option String)

-- One page of the decoded document. nativeText models the return value of
-- page.extract_text() (None or a string); ocrStep models what the OCR
-- provider would do for this page; extractTables models
-- page.extract_tables(settings) as a function of the settings dict.
structure Page where
  nativeText : Option String
  ocrStep : OcrStep
  extractTables : List (String × SettingVal) → List RawTable

-- ---------------------------------------------------------------------------
-- Page text resolution (lines 61-75): native text first, OCR fallback.
-- ---------------------------------------------------------------------------

-- Lines 62-72: the value of page_text after the hybrid step, together with a
-- flag recording whether the OCR path was entered. OCR runs only when the
-- native text is falsy and OCR_AVAILABLE and pdf_bytes are truthy; an OCR
-- exception is caught and leaves page_text unchanged (line 71-72), as does an
-- empty image list (line 69).
def resolvePage (ocrAvailable hasBytes : Bool) (p : Page) :
    Option String × Bool :=
  if !truthy p.nativeText && ocrAvailable && hasBytes then
    match p.ocrStep with
    | OcrStep.raises => (p.nativeText, true)
    | OcrStep.images none => (p.nativeText, true)
    | OcrStep.images (some s) => (some s, true)
  else (p.nativeText, false)

-- What one page adds to all_text (line 74-75): its resolved text plus a
-- newline when that text is truthy, nothing otherwise.
def pageContrib (a b : Bool) (p : Page) : String :=
  match (resolvePage a b p).1 with
  | some s => if s ≠ "" then s ++ "\n" else ""
  | none => ""

-- The body of the accumulation loop of lines 60-75.
def textStep (a b : Bool) (acc : String) (p : Page) : String :=
  if truthy (resolvePage a b p).1 then
    acc ++ ((resolvePage a b p).1.getD "") ++ "\n"
  else acc

-- The accumulation loop of lines 60-75 building all_text.
def allText (a b : Bool) (pages : List Page) : String :=
  pages.foldl (textStep a b) ""

-- ---------------------------------------------------------------------------
-- Rule-driven field extraction (lines 85-91).
-- ---------------------------------------------------------------------------

-- Oracle model of one compiled user pattern. search models
-- re.search(pattern, text, re.IGNORECASE | re.MULTILINE): none when there is
-- no match, otherwise the pair of the full matched text (group 0) and the
-- text of capturing group 1. hasGroup models match.groups() being non-empty,
-- that is, the pattern containing at least one capturing group; the group-1
-- component is meaningful only in that case and is assumed to participate in
-- the match.
structure RuleM where
  hasGroup : Bool
  search : String → Option (String × String)

-- The body of the rule loop, lines 88-91: on a match, store the stripped
-- group 1 if the pattern has groups, else the stripped full match.
def ruleStep (text : String) (acc : List (String × String))
    (kr : String × RuleM) : List (String × String) :=
  match kr.2.search text with
  | none => acc
  | some m => dinsert acc kr.1 (pstrip (if kr.2.hasGroup then m.2 else m.1))

-- Lines 87-91: iterate the rules in declaration order.
def ruleFields (rules : List (String × RuleM)) (text : String) :
    List (String × String) :=
  rules.foldl (ruleStep text) []

-- ---------------------------------------------------------------------------
-- Auto-discovery field extraction (line 51 and lines 92-99).
-- ---------------------------------------------------------------------------

-- Split on newline characters; mirrors how the MULTILINE anchors of
-- GENERIC_PATTERN delimit candidate match positions.
def splitLs : List Char → List (List Char)
  | [] => [[]]
  | c :: cs =>
    if c = '\n' then [] :: splitLs cs
    else
      match splitLs cs with
      | [] => [[c]]
      | l :: ls => (c :: l) :: ls

-- Split a line at its first colon: the part before (the regex group
-- capturing one or more characters other than a colon or newline) and the
-- part after. none when the line has no colon.
def splitFirstColon : List Char → Option (List Char × List Char)
  | [] => none
  | c :: cs =>
    if c = ':' then some ([], cs)
    else
      match splitFirstColon cs with
      | none => none
      | some ka => some (c :: ka.1, ka.2)

-- The successive matches of GENERIC_PATTERN, regex of line 51, over the
-- lines of the text, as produced by finditer (line 94). The pattern is
-- anchored to line starts; after the colon its whitespace class also matches
-- newlines, so when the remainder of the key's own line is blank the value
-- group is taken from the first following line holding a non-blank
-- character, and that line is consumed by the match. The pending argument
-- carries a key still waiting for such a value. When the text ends while a
-- key is pending, the remaining all-blank region can at most produce a match
-- whose value strips to the empty string and the scan yields no further
-- pair, so the model returns no further pair there.
def autoScan : Option (List Char) → List (List Char) →
    List (List Char × List Char)
  | _, [] => []
  | some key, line :: rest =>
    let v := line.dropWhile isHSp
    if v.isEmpty then autoScan (some key) rest
    else (key, v) :: autoScan none rest
  | none, line :: rest =>
    match splitFirstColon line with
    | none => autoScan none rest
    | some ka =>
      if ka.1.isEmpty then autoScan none rest
      else
        let v := ka.2.dropWhile isHSp
        if v.isEmpty then autoScan (some ka.1) rest
        else (ka.1, v) :: autoScan none rest

-- Lines 96-99 for one matched pair: strip key and value and keep the pair
-- when the key length is below 50 and the value non-empty, a later
-- occurrence of a key overwriting an earlier one.
def acceptKV (acc : List (String × String)) (kv : List Char × List Char) :
    List (String × String) :=
  let key : String := String.mk (stripChars kv.1)
  let val : String := String.mk (stripChars kv.2)
  if key.length < 50 ∧ 0 < val.length then dinsert acc key val else acc

-- Lines 94-99.
def autoFields (text : String) : List (String × String) :=
  (autoScan none (splitLs text.data)).foldl acceptKV []

-- Reading of claim C4 following the spec text: scan the text line by line,
-- a line with a first colon preceded by at least one character yields the
-- pair of the stripped parts before and after that colon, accepted under the
-- same length conditions, the last occurrence of a key winning.
def specLineStep (acc : List (String × String)) (line : List Char) :
    List (String × String) :=
  match splitFirstColon line with
  | none => acc
  | some ka => if ka.1.isEmpty then acc else acceptKV acc ka

def specAutoFields (text : String) : List (String × String) :=
  (splitLs text.data).foldl specLineStep []

-- ---------------------------------------------------------------------------
-- Table extraction (lines 102-131).
-- ---------------------------------------------------------------------------

-- The fallback geometry profile of lines 106-110.
def fallbackSettings : List (String × SettingVal) :=
  [("vertical_strategy", SettingVal.str "text"),
   ("horizontal_strategy", SettingVal.str "text"),
   ("intersection_y_tolerance", SettingVal.int 10)]

-- Lines 103-112: primary attempt with the caller's settings; when it yields
-- an empty list, retry once with the fallback profile updated by the
-- caller's settings. The Boolean records whether the fallback was used.
def tableAttempt (fp : Page) (ts : List (String × SettingVal)) :
    List RawTable × Bool :=
  let primary := fp.extractTables ts
  if primary.isEmpty then (fp.extractTables (dupdate fallbackSettings ts), true)
  else (primary, false)

-- Python truthiness of a table cell.
def truthyCell : Option String → Bool
  | none => false
  | some s => decide (s ≠ "")

-- Line 124: clean a data cell.
def cleanCell (c : Option String) : String :=
  match c with
  | some s => if s ≠ "" then pstrip (replNL s) else ""
  | none => ""

-- Line 117: clean a header cell, with a synthetic name for falsy cells.
def headerName (j : Nat) (h : Option String) : String :=
  match h with
  | some s =>
    if s ≠ "" then lowerStr (pstrip (replNL s)) else "col_" ++ Nat.repr j
  | none => "col_" ++ Nat.repr j

-- Lines 120-125: build the row dict, keeping only columns covered by the
-- header list.
def buildRow (headers : List String) (row : List (Option String)) :
    List (String × String) :=
  row.enum.foldl
    (fun rd jc =>
      if jc.1 < headers.length then
        dinsert rd (headers.getD jc.1 "") (cleanCell jc.2)
      else rd)
    []

-- Line 126: a built row is kept only if some value is non-empty.
def rowKept (rd : List (String × String)) : Bool :=
  rd.any (fun kv => decide (kv.2 ≠ ""))

-- The body of the row loop, lines 119-127: skip rows with no truthy cell,
-- keep built rows with at least one non-empty value.
def rowStep (headers : List String) (acc : List (List (String × String)))
    (row : List (Option String)) : List (List (String × String)) :=
  if row.any truthyCell then
    let rd := buildRow headers row
    if rowKept rd then acc ++ [rd] else acc
  else acc

-- A processed table as appended to extracted_data["tables"]: either the list
-- of row dicts of a multi-row table (lines 116-129) or, for a table with at
-- most one row, the raw table appended verbatim (line 131).
inductive TableOut where
  | records (rows : List (List (String × String)))
  | raw (t : RawTable)
deriving DecidableEq

-- Lines 115-131 for a single raw table; none when the table produced no kept
-- row and is therefore omitted (line 128).
def processOneTable (t : RawTable) : Option TableOut :=
  if 1 < t.length then
    let headers := (t.headD []).enum.map (fun jh => headerName jh.1 jh.2)
    let tdata := t.tail.foldl (rowStep headers) []
    if tdata.isEmpty then none else some (TableOut.records tdata)
  else some (TableOut.raw t)

-- The loop of lines 114-131 over all extracted raw tables.
def tblStep (acc : List TableOut) (t : RawTable) : List TableOut :=
  match processOneTable t with
  | some o => acc ++ [o]
  | none => acc

def processTables (tables : List RawTable) : List TableOut :=
  tables.foldl tblStep []

-- ---------------------------------------------------------------------------
-- parse_pdf_content (lines 53-133) and process_single_pdf (lines 135-152).
-- ---------------------------------------------------------------------------

structure ExtractedData where
  text_fields : List (String × String)
  tables : List TableOut
  raw_text : String

-- Python truthiness of the optional rules dict (line 85): an absent or empty
-- dict selects auto-discovery.
def rulesTruthy (rules : Option (List (String × RuleM))) : Bool :=
  match rules with
  | none => false
  | some rs => !rs.isEmpty

-- Python truthiness of the optional table-settings dict (line 102).
def settingsTruthy (ts : Option (List (String × SettingVal))) : Bool :=
  match ts with
  | none => false
  | some d => !d.isEmpty

-- Lines 53-133. ocrAvailable models the module flag OCR_AVAILABLE; hasBytes
-- the truthiness of the pdf_bytes argument. Table extraction uses only the
-- first page (line 82 with line 103); line 82 indexes pdf.pages[0]
-- unconditionally and would raise on an empty page list, but
-- process_single_pdf never calls this function with zero pages, so the model
-- returns no tables in that unreachable case.
def parse_pdf_content (ocrAvailable : Bool) (pages : List Page)
    (hasBytes : Bool) (rules : Option (List (String × RuleM)))
    (tset : Option (List (String × SettingVal))) : ExtractedData :=
  let all_text := allText ocrAvailable hasBytes pages
  let fields :=
    if rulesTruthy rules then ruleFields (rules.getD []) all_text
    else autoFields all_text
  let tables :=
    if settingsTruthy tset then
      match pages.head? with
      | some fp => processTables (tableAttempt fp (tset.getD [])).1
      | none => []
    else []
  { text_fields := fields, tables := tables, raw_text := all_text }

-- What base64 decoding plus pdfplumber.open made of the submitted content
-- bytes: either some exception (base64 error or malformed document, lines
-- 137 and 142, caught at line 151) or a document, carrying the truthiness of
-- the decoded byte string and the page list.
inductive PdfInput where
  | decodeError (msg : String)
  | doc (hasBytes : Bool) (pages : List Page)

-- Return value of process_single_pdf: the error dict or the extracted data.
inductive PdfOutcome where
  | error (msg : String)
  | ok (data : ExtractedData)

-- Lines 135-152.
def process_single_pdf (ocrAvailable : Bool) (input : PdfInput)
    (rules : Option (List (String × RuleM)))
    (tset : Option (List (String × SettingVal))) : PdfOutcome :=
  match input with
  | PdfInput.decodeError m => PdfOutcome.error m
  | PdfInput.doc hb pages =>
    if pages.isEmpty then PdfOutcome.error "PDF has no pages"
    else PdfOutcome.ok (parse_pdf_content ocrAvailable pages hb rules tset)

-- ---------------------------------------------------------------------------
-- Transport layer: the extract_text endpoint (lines 156-208).
-- ---------------------------------------------------------------------------

-- One attachment of a Graph payload (lines 22-28).
structure GraphAttachment where
  name : Option String
  contentType : Option String
  contentBytes : String

-- The legacy single-file payload (lines 40-47).
structure SingleFilePayload where
  ContentType : String
  contentBytes : String
  extraction_rules : Option (List (String × RuleM))
  table_settings : Option (List (String × SettingVal))

-- The three accepted request shapes (line 157): a Graph payload wrapping a
-- value list (lines 31-37), a legacy single file, or a bare attachment list.
inductive Payload where
  | graph (value : List GraphAttachment)
      (extraction_rules : Option (List (String × RuleM)))
      (table_settings : Option (List (String × SettingVal)))
  | single (p : SingleFilePayload)
  | bare (items : List GraphAttachment)

-- Substring and end-of-string tests on character lists.
def startsWithL : List Char → List Char → Bool
  | [], _ => true
  | _ :: _, [] => false
  | a :: s, b :: t => decide (a = b) && startsWithL s t

def containsL (sub : List Char) : List Char → Bool
  | [] => startsWithL sub []
  | c :: t => startsWithL sub (c :: t) || containsL sub t

def endsWithL (sub l : List Char) : Bool :=
  startsWithL sub.reverse l.reverse

-- Lines 176-183: the PDF filter. A truthy content type containing pdf, or a
-- truthy name ending in .pdf (both case-insensitively), or no metadata at
-- all with truthy content bytes.
def isPdfA (a : GraphAttachment) : Bool :=
  (match a.contentType with
   | some ct => decide (ct ≠ "") && containsL "pdf".data (lowerStr ct).data
   | none => false) ||
  (match a.name with
   | some n => decide (n ≠ "") && endsWithL ".pdf".data (lowerStr n).data
   | none => false) ||
  (optFalsy a.name && optFalsy a.contentType && decide (a.contentBytes ≠ ""))

-- Lines 185-199 for one attachment: the per-item response object, a JSON
-- object with string values modelled as an association list. decode is the
-- oracle taking the base64 content to its decoding outcome. Note line 191:
-- process_single_pdf is called without rules or table settings.
def processAttachment (ocrAvailable : Bool) (decode : String → PdfInput)
    (a : GraphAttachment) : List (String × String) :=
  if isPdfA a then
    match process_single_pdf ocrAvailable (decode a.contentBytes) none none with
    | PdfOutcome.error m => [("raw_text", "Error: " ++ m)]
    | PdfOutcome.ok d => [("raw_text", pstrip d.raw_text)]
  else [("raw_text", "Error: Not a PDF")]

-- The endpoint's response: a bare item object for the legacy single-file
-- mode (line 203), otherwise the list of item objects (line 205).
inductive Response where
  | single (item : List (String × String))
  | batch (items : List (List (String × String)))

-- Lines 157-205.
def extract_text (ocrAvailable : Bool) (decode : String → PdfInput)
    (payload : Payload) : Response :=
  let attachments :=
    match payload with
    | Payload.bare items => items
    | Payload.graph value _ _ => value
    | Payload.single p =>
      [{ name := none, contentType := some p.ContentType,
         contentBytes := p.contentBytes }]
  let results := attachments.map (processAttachment ocrAvailable decode)
  match payload with
  | Payload.single _ =>
    if results.length = 1 then Response.single (results.getD 0 [])
    else Response.batch results
  | _ => Response.batch results

-- The per-item objects of a response.
def itemsOf : Response → List (List (String × String))
  | Response.single i => [i]
  | Response.batch l => l

-- ---------------------------------------------------------------------------
-- Claim model for C9: raw text as the claim describes it.
-- ---------------------------------------------------------------------------

-- Reading of claim C9 following the spec text: the resolved texts of all
-- pages, in order, joined with a single newline, pages resolving to empty
-- text included.
def claimRawText (a b : Bool) (pages : List Page) : String :=
  String.intercalate "\n" (pages.map (fun p => (resolvePage a b p).1.getD ""))

-- The raw text the code actually produces, stated structurally: the
-- concatenation over the pages, in order, of each page's contribution.
def docRawText (a b : Bool) (pages : List Page) : String :=
  (pages.map (pageContrib a b)).foldr (fun s acc => s ++ acc) ""

-- ---------------------------------------------------------------------------
-- TextNormalizer. Modelled from the spec: src/main.py contains no
-- normalization step (page text is accumulated verbatim), so the
-- TextNormalizer of spec section 4.1 is modelled from the spec's words: per
-- line, strip trailing whitespace, collapse every run of three or more
-- horizontal-space characters to a single space, strip leading and trailing
-- whitespace; collapse consecutive blank lines to one; strip leading and
-- trailing blank lines. Horizontal space is modelled as space and tab.
-- ---------------------------------------------------------------------------

-- Emit a completed run of horizontal-space characters: runs of length three
-- or more become a single space, shorter runs are kept verbatim.
def emitRun (pend : List Char) : List Char :=
  if 3 ≤ pend.length then [' '] else pend

-- Collapse runs of three or more horizontal-space characters, carrying the
-- current run in pend.
def collapseAux (pend : List Char) : List Char → List Char
  | [] => emitRun pend
  | c :: cs =>
    if isHSp c then collapseAux (pend ++ [c]) cs
    else emitRun pend ++ c :: collapseAux [] cs

def collapse3 (l : List Char) : List Char := collapseAux [] l

-- One line of the normalizer: strip trailing whitespace, collapse space
-- runs, then strip both ends.
def lineNorm (l : List Char) : List Char :=
  (dropTrailP isHSp (collapse3 (dropTrailP isHSp l))).dropWhile isHSp

-- Join lines with single newlines.
def joinLs : List (List Char) → List Char
  | [] => []
  | [l] => l
  | l :: l2 :: ls => l ++ '\n' :: joinLs (l2 :: ls)

def isEmptyL (l : List Char) : Bool := l.isEmpty

-- Collapse runs of consecutive blank lines to a single blank line.
def collapseBlanks : List (List Char) → List (List Char)
  | [] => []
  | [l] => [l]
  | a :: b :: r =>
    if a.isEmpty && b.isEmpty then collapseBlanks (b :: r)
    else a :: collapseBlanks (b :: r)

-- The whole normalizer on a character list.
def normalizeL (l : List Char) : List Char :=
  joinLs (dropTrailP isEmptyL
    ((collapseBlanks ((splitLs l).map lineNorm)).dropWhile isEmptyL))

-- Modelled from the spec: the TextNormalizer contract of section 4.1. Named
-- normalizeText because Mathlib already declares a global named normalize.
def normalizeText (s : String) : String := String.mk (normalizeL s.data)

-- Whether a character list contains a run of three or more consecutive
-- horizontal-space characters (the collapse trigger of the normalizer).
def hasRun3 : List Char → Bool
  | a :: b :: c :: r => (isHSp a && isHSp b && isHSp c) || hasRun3 (b :: c :: r)
  | _ => false

-- Whether a line list contains two consecutive blank lines.
def adjBlank : List (List Char) → Bool
  | a :: b :: r => (a.isEmpty && b.isEmpty) || adjBlank (b :: r)
  | _ => false

-- ---------------------------------------------------------------------------
-- Concrete fixtures used by witnesses and counterexamples.
-- ---------------------------------------------------------------------------

-- A page with a truthy native text layer.
def pageNative : Page :=
  { nativeText := some "hello", ocrStep := OcrStep.images none,
    extractTables := fun _ => [] }

-- A page whose native text is a (present but) empty string and whose OCR
-- invocation would raise.
def pageRaises : Page :=
  { nativeText := some "", ocrStep := OcrStep.raises,
    extractTables := fun _ => [] }

-- A page resolving to the one-character text a, no OCR needed.
def pageA : Page :=
  { nativeText := some "a", ocrStep := OcrStep.images none,
    extractTables := fun _ => [] }

-- A page resolving to empty text (native empty, OCR yields no image).
def pageEmpty : Page :=
  { nativeText := some "", ocrStep := OcrStep.images none,
    extractTables := fun _ => [] }

-- A page whose primary table extraction yields nothing, for any settings.
def pageNoTables : Page :=
  { nativeText := some "x", ocrStep := OcrStep.images none,
    extractTables := fun _ => [] }

-- Caller table settings overriding one fallback key.
def tsCaller : List (String × SettingVal) :=
  [("vertical_strategy", SettingVal.str "lines")]

-- A rule whose oracle finds one match with a capturing group.
def ruleInv : RuleM :=
  { hasGroup := true,
    search := fun t =>
      if t = "Invoice: 1234" then some ("Invoice: 1234", " 1234") else none }

def rulesInv : List (String × RuleM) := [("invoice_no", ruleInv)]

-- The auto-discovery counterexample text: the middle line ends at its colon,
-- so the regex match started there swallows the following line.
def cexText : String := "A: 1\nA:\nA: 2"

-- A two-row raw table with one header cell and one data cell.
def tblHX : RawTable := [[some "h"], [some "x"]]

-- A single-row all-null raw table.
def tblNull : RawTable := [[none]]

-- A decode oracle that always fails, and a metadata-free attachment.
def decodeBad : String → PdfInput := fun _ => PdfInput.decodeError "bad"

def attachPlain : GraphAttachment :=
  { name := none, contentType := none, contentBytes := "QQ==" }

-- ---------------------------------------------------------------------------
-- Helper lemmas about string concatenation.
-- ---------------------------------------------------------------------------

theorem strAppend_assoc (a b c : String) : a ++ b ++ c = a ++ (b ++ c) := by
  apply String.ext
  simp [String.data_append, List.append_assoc]

theorem strAppend_empty (a : String) : a ++ "" = a := by
  apply String.ext
  rw [String.data_append]
  exact List.append_nil a.data

theorem strEmpty_append (a : String) : "" ++ a = a := by
  apply String.ext
  rw [String.data_append]
  rfl

-- ---------------------------------------------------------------------------
-- Helper lemmas about the all_text accumulation.
-- ---------------------------------------------------------------------------

theorem textStep_eq (a b : Bool) (acc : String) (p : Page) :
    textStep a b acc p = acc ++ pageContrib a b p := by
  unfold textStep pageContrib
  cases h : (resolvePage a b p).1 with
  | none => simp [h, truthy, strAppend_empty]
  | some s =>
    by_cases hs : s = ""
    · subst hs
      simp [h, truthy, strAppend_empty]
    · simp [h, truthy, hs, strAppend_assoc]

theorem foldl_textStep (a b : Bool) (pages : List Page) (acc : String) :
    pages.foldl (textStep a b) acc = acc ++ allText a b pages := by
  induction pages generalizing acc with
  | nil => simp [allText, strAppend_empty]
  | cons p ps ih =>
    rw [List.foldl_cons, ih, textStep_eq]
    have h2 : allText a b (p :: ps) = pageContrib a b p ++ allText a b ps := by
      unfold allText
      rw [List.foldl_cons, ih, textStep_eq, strEmpty_append]
      rfl
    rw [h2, strAppend_assoc]

theorem allText_cons (a b : Bool) (p : Page) (ps : List Page) :
    allText a b (p :: ps) = pageContrib a b p ++ allText a b ps := by
  unfold allText
  rw [List.foldl_cons, foldl_textStep, textStep_eq, strEmpty_append]
  rfl

theorem allText_append (a b : Bool) (xs ys : List Page) :
    allText a b (xs ++ ys) = allText a b xs ++ allText a b ys := by
  unfold allText
  rw [List.foldl_append, foldl_textStep]
  rfl

theorem allText_eq_doc (a b : Bool) (pages : List Page) :
    allText a b pages = docRawText a b pages := by
  induction pages with
  | nil => rfl
  | cons p ps ih =>
    rw [allText_cons, ih]
    simp [docRawText]

-- ---------------------------------------------------------------------------
-- Helper lemmas about the dict model.
-- ---------------------------------------------------------------------------

theorem dget_cons {α : Type} (kv : String × α) (d : List (String × α))
    (k : String) :
    dget (kv :: d) k = if kv.1 = k then some kv.2 else dget d k := by
  unfold dget
  rw [List.find?_cons]
  by_cases h : kv.1 = k <;> simp [h]

theorem dget_append {α : Type} (d₁ d₂ : List (String × α)) (k : String) :
    dget (d₁ ++ d₂) k =
      match dget d₁ k with
      | some v => some v
      | none => dget d₂ k := by
  induction d₁ with
  | nil => rfl
  | cons kv tl ih =>
    rw [List.cons_append, dget_cons, dget_cons]
    by_cases h : kv.1 = k <;> simp [h, ih]

theorem dget_mapval {α : Type} (d : List (String × α)) (f : String → α → α)
    (k : String) :
    dget (d.map (fun kv => (kv.1, f kv.1 kv.2))) k = (dget d k).map (f k) := by
  induction d with
  | nil => rfl
  | cons kv tl ih =>
    rw [List.map_cons, dget_cons, dget_cons]
    by_cases h : kv.1 = k
    · simp only [h, if_pos]
      rfl
    · simp only [h, if_neg, ih]
      simp [h]

theorem dget_filter_keyfixed {α : Type} (l : List (String × α))
    (q : String × α → Bool) (k : String)
    (hq : ∀ kv : String × α, kv.1 = k → q kv = true) :
    dget (l.filter q) k = dget l k := by
  induction l with
  | nil => rfl
  | cons kv tl ih =>
    rw [List.filter_cons]
    by_cases hk : kv.1 = k
    · rw [hq kv hk]
      simp only [if_pos]
      rw [dget_cons, dget_cons]
      simp [hk]
    · cases hqv : q kv with
      | true =>
        simp only [if_pos]
        rw [dget_cons, dget_cons]
        simp [hk, ih]
      | false =>
        simp only [Bool.false_eq_true, if_neg, not_false_iff]
        rw [ih, dget_cons]
        simp [hk]

theorem dget_dupdate_of_extra {α : Type} (base extra : List (String × α))
    (k : String) (v : α) (h : dget extra k = some v) :
    dget (dupdate base extra) k = some v := by
  unfold dupdate
  rw [dget_append]
  have hmap :
      dget (base.map (fun kv => (kv.1, (dget extra kv.1).getD kv.2))) k =
        (dget base k).map (fun w => (dget extra k).getD w) :=
    dget_mapval base (fun x w => (dget extra x).getD w) k
  cases hb : dget base k with
  | some w =>
    rw [hb] at hmap
    rw [hmap]
    simp [h]
  | none =>
    rw [hb] at hmap
    rw [hmap]
    simp only [Option.map_none']
    rw [dget_filter_keyfixed]
    · exact h
    · intro kv hkv
      rw [hkv, hb]
      rfl

theorem dget_overwrite {α : Type} (d : List (String × α)) (k : String) (v : α)
    (h : (d.find? (fun kv => decide (kv.1 = k))).isSome = true) :
    dget (d.map (fun kv => if kv.1 = k then (k, v) else kv)) k = some v := by
  induction d with
  | nil => simp at h
  | cons kv tl ih =>
    rw [List.map_cons]
    by_cases hk : kv.1 = k
    · simp only [hk, if_pos]
      rw [dget_cons]
      simp
    · simp only [hk, if_neg, not_false_iff]
      rw [dget_cons]
      simp only [hk, if_neg, not_false_iff]
      apply ih
      rw [List.find?_cons, decide_eq_false hk] at h
      exact h

theorem dget_map_ne {α : Type} (d : List (String × α)) (k : String) (v : α)
    (k' : String) (h : k' ≠ k) :
    dget (d.map (fun kv => if kv.1 = k then (k, v) else kv)) k' = dget d k' := by
  induction d with
  | nil => rfl
  | cons kv tl ih =>
    rw [List.map_cons]
    by_cases hk : kv.1 = k
    · simp only [hk, if_pos]
      rw [dget_cons, dget_cons]
      have h1 : ¬ k = k' := fun hh => h hh.symm
      have h2 : ¬ kv.1 = k' := by
        rw [hk]
        exact h1
      rw [if_neg h1, if_neg h2, ih]
    · simp only [hk, if_neg, not_false_iff]
      rw [dget_cons, dget_cons]
      by_cases hk' : kv.1 = k' <;> simp [hk', ih]

theorem dget_dinsert_self {α : Type} (d : List (String × α)) (k : String)
    (v : α) : dget (dinsert d k v) k = some v := by
  unfold dinsert
  split
  case isTrue h => exact dget_overwrite d k v h
  case isFalse h =>
    rw [dget_append]
    have hd : dget d k = none := by
      unfold dget
      cases hf : d.find? (fun kv => decide (kv.1 = k)) with
      | none => rfl
      | some kv =>
        rw [hf] at h
        simp at h
    rw [hd]
    rw [dget_cons]
    simp

theorem dget_dinsert_ne {α : Type} (d : List (String × α)) (k : String)
    (v : α) (k' : String) (h : k' ≠ k) :
    dget (dinsert d k v) k' = dget d k' := by
  unfold dinsert
  split
  case isTrue hf => exact dget_map_ne d k v k' h
  case isFalse hf =>
    rw [dget_append]
    cases hd : dget d k' with
    | some w => simp
    | none =>
      rw [dget_cons]
      have : ¬ k = k' := fun hh => h hh.symm
      simp [this]
      rfl

-- ---------------------------------------------------------------------------
-- Claim C1.
-- ---------------------------------------------------------------------------

/-- Claim C1: OCR is attempted for a page only when the page's native text is
empty or absent; when the native text is non-empty it becomes the page's
resolved text as it stands and the OCR path is never entered, so no page's
resolved text is produced by both native extraction and OCR. -/
theorem claim_C1_native_short_circuit (a b : Bool) (p : Page)
    (h : truthy p.nativeText = true) :
    resolvePage a b p = (p.nativeText, false) := by
  unfold resolvePage
  rw [h]
  simp

theorem claim_C1_witness :
    resolvePage true true pageNative = (pageNative.nativeText, false) :=
  claim_C1_native_short_circuit true true pageNative (by decide)

-- ---------------------------------------------------------------------------
-- Claim C2.
-- ---------------------------------------------------------------------------

/-- Claim C2: when a page's native text is falsy and its OCR step raises, the
exception is absorbed, the page resolves to empty text, the pages around it
still contribute exactly their own text, and process_single_pdf still
returns an ok document-level result for the whole document. -/
theorem claim_C2_ocr_failure_degrades (a b : Bool) (xs ys : List Page)
    (p : Page) (rules : Option (List (String × RuleM)))
    (tset : Option (List (String × SettingVal)))
    (h1 : truthy p.nativeText = false) (h2 : p.ocrStep = OcrStep.raises) :
    (resolvePage a b p).1.getD "" = "" ∧
    allText a b (xs ++ p :: ys) = allText a b xs ++ allText a b ys ∧
    process_single_pdf a (PdfInput.doc b (xs ++ p :: ys)) rules tset =
      PdfOutcome.ok (parse_pdf_content a (xs ++ p :: ys) b rules tset) := by
  have hres : (resolvePage a b p).1 = p.nativeText := by
    unfold resolvePage
    split
    · rw [h2]
    · rfl
  have hempty : p.nativeText.getD "" = "" := by
    cases hn : p.nativeText with
    | none => rfl
    | some s =>
      rw [hn] at h1
      simp [truthy] at h1
      simp [h1]
  refine ⟨?_, ?_, ?_⟩
  · rw [hres]
    exact hempty
  · rw [allText_append, allText_cons]
    have hc : pageContrib a b p = "" := by
      unfold pageContrib
      rw [hres]
      cases hn : p.nativeText with
      | none => rfl
      | some s =>
        rw [hn] at h1
        simp [truthy] at h1
        simp [h1]
    rw [hc, strEmpty_append]
  · unfold process_single_pdf
    have hne : (xs ++ p :: ys).isEmpty = false := by
      simp
    simp [hne]

theorem claim_C2_witness :
    (resolvePage true true pageRaises).1.getD "" = "" ∧
    allText true true ([pageA] ++ pageRaises :: [pageA]) =
      allText true true [pageA] ++ allText true true [pageA] ∧
    process_single_pdf true (PdfInput.doc true ([pageA] ++ pageRaises :: [pageA]))
        none none =
      PdfOutcome.ok
        (parse_pdf_content true ([pageA] ++ pageRaises :: [pageA]) true none
          none) :=
  claim_C2_ocr_failure_degrades true true [pageA] [pageA] pageRaises none none
    (by decide) rfl

-- ---------------------------------------------------------------------------
-- Claim C6.
-- ---------------------------------------------------------------------------

/-- Claim C6: an input that decodes to a document with zero pages makes
process_single_pdf return the empty-document error; no extracted data is
produced and parse_pdf_content is never consulted, whatever the rule and
table-settings arguments. -/
theorem claim_C6_empty_document (a hb : Bool)
    (rules : Option (List (String × RuleM)))
    (tset : Option (List (String × SettingVal))) :
    process_single_pdf a (PdfInput.doc hb []) rules tset =
      PdfOutcome.error "PDF has no pages" := rfl

-- ---------------------------------------------------------------------------
-- Claim C9: corrected.
-- ---------------------------------------------------------------------------

/-- Claim C9 counterexample: for a document of one empty page followed by a
page with text a, the claim predicts raw text newline-a (resolved texts of
all pages joined with one newline, empty pages included); the code produces
a-newline, because each truthy page appends its text plus a trailing newline
and falsy pages are skipped entirely. -/
theorem claim_C9_counterexample :
    (parse_pdf_content false [pageEmpty, pageA] false none none).raw_text =
      "a\n" ∧
    claimRawText false false [pageEmpty, pageA] = "\na" ∧
    ("a\n" : String) ≠ "\na" := by
  refine ⟨by decide, by decide, by decide⟩

/-- Claim C9 amended: the whole-document raw text equals the concatenation,
in page order, of the contributions of the pages, where a page whose
resolved text is truthy contributes that text followed by a newline and any
other page contributes nothing. -/
theorem claim_C9_raw_text_concatenation (a hb : Bool) (pages : List Page)
    (rules : Option (List (String × RuleM)))
    (tset : Option (List (String × SettingVal))) :
    (parse_pdf_content a pages hb rules tset).raw_text =
      docRawText a hb pages :=
  allText_eq_doc a hb pages

-- ---------------------------------------------------------------------------
-- Claim C3.
-- ---------------------------------------------------------------------------

/-- Claim C3: with table settings supplied, the fallback geometry profile is
consulted exactly when the primary extraction with the caller's settings
yields zero tables, and in the merged fallback configuration every key
present in the caller's settings keeps its caller-supplied value. -/
theorem claim_C3_fallback_engagement (fp : Page)
    (ts : List (String × SettingVal)) :
    ((tableAttempt fp ts).2 = true ↔ fp.extractTables ts = []) ∧
    (∀ k v, dget ts k = some v →
      dget (dupdate fallbackSettings ts) k = some v) := by
  constructor
  · unfold tableAttempt
    by_cases h : (fp.extractTables ts).isEmpty
    · simp only [h, if_pos]
      simp only [true_iff]
      exact List.isEmpty_iff.mp h
    · simp only [h]
      simp only [Bool.false_eq_true, if_neg, not_false_iff]
      constructor
      · intro hh
        exact absurd hh (by simp)
      · intro hh
        rw [hh] at h
        exact absurd rfl h
  · intro k v hkv
    exact dget_dupdate_of_extra fallbackSettings ts k v hkv

theorem claim_C3_witness :
    (tableAttempt pageNoTables tsCaller).2 = true ∧
    dget (dupdate fallbackSettings tsCaller) "vertical_strategy" =
      some (SettingVal.str "lines") :=
  ⟨(claim_C3_fallback_engagement pageNoTables tsCaller).1.mpr rfl,
   (claim_C3_fallback_engagement pageNoTables tsCaller).2 "vertical_strategy"
     (SettingVal.str "lines") (by decide)⟩

-- ---------------------------------------------------------------------------
-- Claim C5.
-- ---------------------------------------------------------------------------

theorem dget_ruleFoldl_untouched (text : String)
    (rules : List (String × RuleM)) (acc : List (String × String))
    (key : String) (h : ∀ kr ∈ rules, kr.1 ≠ key) :
    dget (rules.foldl (ruleStep text) acc) key = dget acc key := by
  induction rules generalizing acc with
  | nil => rfl
  | cons kr rest ih =>
    rw [List.foldl_cons]
    rw [ih _ (fun x hx => h x (List.mem_cons_of_mem kr hx))]
    unfold ruleStep
    cases hs : kr.2.search text with
    | none => rfl
    | some m =>
      exact dget_dinsert_ne acc kr.1 _ key
        (fun hh => h kr (List.mem_cons_self kr rest) hh.symm)

theorem ruleFields_foldl_spec (text : String) (rules : List (String × RuleM))
    (acc : List (String × String)) (key : String) (r : RuleM)
    (hnd : (rules.map (fun kr => kr.1)).Nodup) (hmem : (key, r) ∈ rules) :
    dget (rules.foldl (ruleStep text) acc) key =
      match r.search text with
      | none => dget acc key
      | some m => some (pstrip (if r.hasGroup then m.2 else m.1)) := by
  induction rules generalizing acc with
  | nil => cases hmem
  | cons kr rest ih =>
    simp only [List.map_cons, List.nodup_cons] at hnd
    rw [List.foldl_cons]
    rcases List.mem_cons.mp hmem with heq | hmem2
    · have hk : kr.1 = key := by rw [← heq]
      have hr : kr.2 = r := by rw [← heq]
      have hnot : ∀ x ∈ rest, x.1 ≠ key := by
        intro x hx hxk
        exact hnd.1 (hk ▸ hxk ▸ List.mem_map_of_mem (fun kr => kr.1) hx)
      rw [dget_ruleFoldl_untouched text rest _ key hnot]
      unfold ruleStep
      rw [hr, hk]
      cases hs : r.search text with
      | none => rfl
      | some m => exact dget_dinsert_self acc key _
    · have hk_ne : kr.1 ≠ key := by
        intro hh
        exact hnd.1
          (hh ▸ List.mem_map.mpr ⟨(key, r), hmem2, rfl⟩)
      rw [ih _ hnd.2 hmem2]
      have hstep : dget (ruleStep text acc kr) key = dget acc key := by
        unfold ruleStep
        cases hs2 : kr.2.search text with
        | none => rfl
        | some m =>
          exact dget_dinsert_ne acc kr.1 _ key (fun hh => hk_ne hh.symm)
      cases hs : r.search text with
      | none => exact hstep
      | some m => rfl

/-- Claim C5: in rule-driven mode the rules are applied in declaration order
against the whole text; a rule whose oracle search finds no match leaves its
key absent from the field map, and a rule whose search finds a match maps
its key to the stripped group 1 when the pattern has a capturing group and
to the stripped full match otherwise. The oracle stands for the first,
case-insensitive, multiline match of re.search. -/
theorem claim_C5_rule_driven (rules : List (String × RuleM)) (text : String)
    (key : String) (r : RuleM)
    (hnd : (rules.map (fun kr => kr.1)).Nodup) (hmem : (key, r) ∈ rules) :
    (r.search text = none → dget (ruleFields rules text) key = none) ∧
    (∀ m, r.search text = some m →
      dget (ruleFields rules text) key =
        some (pstrip (if r.hasGroup then m.2 else m.1))) := by
  have haux := ruleFields_foldl_spec text rules [] key r hnd hmem
  constructor
  · intro hnone
    rw [hnone] at haux
    exact haux
  · intro m hm
    rw [hm] at haux
    exact haux

theorem claim_C5_witness :
    dget (ruleFields rulesInv "Invoice: 1234") "invoice_no" = some "1234" := by
  have h :=
    (claim_C5_rule_driven rulesInv "Invoice: 1234" "invoice_no" ruleInv
      (by decide) (List.mem_singleton.mpr rfl)).2
      ("Invoice: 1234", " 1234") (by decide)
  exact h.trans (by decide)

-- ---------------------------------------------------------------------------
-- Claim C10.
-- ---------------------------------------------------------------------------

/-- Claim C10: for every payload shape the endpoint accepts, every per-item
response object is exactly a raw_text binding (never text_fields or tables),
and the response is unchanged by whatever extraction_rules or table_settings
the payload carries, since extraction is always invoked without them. -/
theorem claim_C10_endpoint_raw_text_only (ocr : Bool)
    (decode : String → PdfInput) (payload : Payload) :
    (∀ item ∈ itemsOf (extract_text ocr decode payload),
      ∃ s, item = [("raw_text", s)]) ∧
    (∀ v r1 t1 r2 t2,
      extract_text ocr decode (Payload.graph v r1 t1) =
        extract_text ocr decode (Payload.graph v r2 t2)) ∧
    (∀ ct cb r1 t1 r2 t2,
      extract_text ocr decode (Payload.single ⟨ct, cb, r1, t1⟩) =
        extract_text ocr decode (Payload.single ⟨ct, cb, r2, t2⟩)) := by
  have hshape : ∀ a : GraphAttachment,
      ∃ s, processAttachment ocr decode a = [("raw_text", s)] := by
    intro a
    unfold processAttachment
    by_cases h : isPdfA a
    · simp only [h, if_pos]
      cases process_single_pdf ocr (decode a.contentBytes) none none with
      | error m => exact ⟨"Error: " ++ m, rfl⟩
      | ok d => exact ⟨pstrip d.raw_text, rfl⟩
    · exact ⟨"Error: Not a PDF", by simp [h]⟩
  refine ⟨?_, fun v r1 t1 r2 t2 => rfl, fun ct cb r1 t1 r2 t2 => rfl⟩
  intro item hitem
  cases payload with
  | bare items =>
    simp only [extract_text, itemsOf] at hitem
    obtain ⟨a, ha, hfa⟩ := List.mem_map.mp hitem
    rw [← hfa]
    exact hshape a
  | graph v r t =>
    simp only [extract_text, itemsOf] at hitem
    obtain ⟨a, ha, hfa⟩ := List.mem_map.mp hitem
    rw [← hfa]
    exact hshape a
  | single p =>
    simp only [extract_text, itemsOf, List.map_cons, List.map_nil,
      List.length_cons, List.length_nil] at hitem
    simp at hitem
    rw [hitem]
    exact hshape _

theorem claim_C10_witness :
    ∃ s, [("raw_text", "Error: bad")] = [("raw_text", s)] :=
  (claim_C10_endpoint_raw_text_only false decodeBad
    (Payload.bare [attachPlain])).1 [("raw_text", "Error: bad")] (by decide)

-- ---------------------------------------------------------------------------
-- Claim C7: corrected.
-- ---------------------------------------------------------------------------

theorem mem_tblFoldl (tables : List RawTable) (acc : List TableOut)
    (x : TableOut) (hx : x ∈ tables.foldl tblStep acc) :
    x ∈ acc ∨ ∃ t ∈ tables, processOneTable t = some x := by
  induction tables generalizing acc with
  | nil => exact Or.inl hx
  | cons t rest ih =>
    rw [List.foldl_cons] at hx
    rcases ih _ hx with hacc | ⟨t2, ht2, hp⟩
    · unfold tblStep at hacc
      cases hp : processOneTable t with
      | none =>
        rw [hp] at hacc
        exact Or.inl hacc
      | some o =>
        rw [hp] at hacc
        rcases List.mem_append.mp hacc with h1 | h2
        · exact Or.inl h1
        · have hxo : x = o := List.mem_singleton.mp h2
          exact Or.inr ⟨t, List.mem_cons_self t rest, by rw [hp, hxo]⟩
    · exact Or.inr ⟨t2, List.mem_cons_of_mem t ht2, hp⟩

theorem rowFoldl_kept (headers : List String)
    (rows : List (List (Option String)))
    (acc : List (List (String × String)))
    (hacc : ∀ r ∈ acc, rowKept r = true) (rd : List (String × String))
    (h : rd ∈ rows.foldl (rowStep headers) acc) : rowKept rd = true := by
  induction rows generalizing acc with
  | nil => exact hacc rd h
  | cons row rest ih =>
    rw [List.foldl_cons] at h
    apply ih _ _ h
    intro r hr
    unfold rowStep at hr
    by_cases ha : row.any truthyCell
    · simp only [ha, if_pos] at hr
      by_cases hk : rowKept (buildRow headers row)
      · simp only [hk, if_pos] at hr
        rcases List.mem_append.mp hr with h1 | h2
        · exact hacc r h1
        · rw [List.mem_singleton.mp h2]
          exact hk
      · simp only [hk, if_neg, not_false_iff] at hr
        exact hacc r hr
    · simp only [ha] at hr
      simp only [Bool.false_eq_true, if_neg, not_false_iff] at hr
      exact hacc r hr

theorem processOneTable_records (t : RawTable)
    (rows : List (List (String × String)))
    (h : processOneTable t = some (TableOut.records rows)) :
    rows ≠ [] ∧ ∀ rd ∈ rows, rowKept rd = true := by
  unfold processOneTable at h
  by_cases hlen : 1 < t.length
  · simp only [hlen, if_pos] at h
    by_cases he :
        (t.tail.foldl
          (rowStep ((t.headD []).enum.map (fun jh => headerName jh.1 jh.2)))
          []).isEmpty
    · simp only [he, if_pos] at h
      cases h
    · simp only [he, Bool.false_eq_true, if_neg, not_false_iff,
        Option.some.injEq, TableOut.records.injEq] at h
      constructor
      · intro hnil
        rw [h, hnil] at he
        exact he rfl
      · intro rd hrd
        rw [← h] at hrd
        exact rowFoldl_kept _ _ [] (fun r hr => absurd hr (List.not_mem_nil r))
          rd hrd
  · simp only [hlen, if_neg, not_false_iff, Option.some.injEq] at h
    cases h

theorem processOneTable_raw (t t2 : RawTable)
    (h : processOneTable t = some (TableOut.raw t2)) : t2.length ≤ 1 := by
  unfold processOneTable at h
  by_cases hlen : 1 < t.length
  · simp only [hlen, if_pos] at h
    by_cases he :
        (t.tail.foldl
          (rowStep ((t.headD []).enum.map (fun jh => headerName jh.1 jh.2)))
          []).isEmpty
    · simp only [he, if_pos] at h
      cases h
    · simp only [he, Bool.false_eq_true, if_neg, not_false_iff,
        Option.some.injEq] at h
      cases h
  · simp only [hlen, if_neg, not_false_iff, Option.some.injEq,
      TableOut.raw.injEq] at h
    rw [← h]
    omega

/-- Claim C7 counterexample: a document whose first page yields a single
table consisting of one all-null row. The code appends that table verbatim
(line 131), so the emitted record has no header row and not a single row
with a non-empty cell, contradicting the claimed invariant. -/
theorem claim_C7_counterexample :
    processTables [tblNull] = [TableOut.raw [[none]]] ∧
    ∀ row ∈ ([[none]] : RawTable), row.any truthyCell = false := by
  refine ⟨by decide, by decide⟩

/-- Claim C7 amended: every table emitted through the multi-row branch is a
non-empty list of row records each of which has at least one non-empty
value; a table with at most one row, however, is appended verbatim with no
filtering at all. -/
theorem claim_C7_emitted_tables (tables : List RawTable) (x : TableOut)
    (hx : x ∈ processTables tables) :
    (∀ rows, x = TableOut.records rows →
      rows ≠ [] ∧ ∀ rd ∈ rows, rowKept rd = true) ∧
    (∀ t, x = TableOut.raw t → t.length ≤ 1) := by
  rcases mem_tblFoldl tables [] x hx with h0 | ⟨t, ht, hp⟩
  · cases h0
  constructor
  · intro rows hrx
    rw [hrx] at hp
    exact processOneTable_records t rows hp
  · intro t2 hrx
    rw [hrx] at hp
    exact processOneTable_raw t t2 hp

theorem claim_C7_witness : rowKept [("h", "x")] = true :=
  ((claim_C7_emitted_tables [tblHX] (TableOut.records [[("h", "x")]])
      (by decide)).1 [[("h", "x")]] rfl).2 [("h", "x")]
    (List.mem_singleton.mpr rfl)

-- ---------------------------------------------------------------------------
-- Claim C4: corrected.
-- ---------------------------------------------------------------------------

theorem dropWhile_subset_absorb (p q : Char → Bool)
    (hpq : ∀ c, q c = true → p c = true) (l : List Char) :
    (l.dropWhile q).dropWhile p = l.dropWhile p := by
  induction l with
  | nil => rfl
  | cons c cs ih =>
    by_cases hq : q c = true
    · rw [List.dropWhile_cons, if_pos hq, ih, List.dropWhile_cons,
        if_pos (hpq c hq)]
    · rw [List.dropWhile_cons, if_neg hq]

theorem hsp_imp_pyws (c : Char) (h : isHSp c = true) : pyWs c = true := by
  simp only [isHSp, decide_eq_true_eq] at h
  simp only [pyWs, decide_eq_true_eq]
  tauto

theorem stripChars_dropLead (l : List Char) :
    stripChars (l.dropWhile isHSp) = stripChars l := by
  unfold stripChars
  rw [dropWhile_subset_absorb pyWs isHSp hsp_imp_pyws l]

theorem acceptKV_dropLead (acc : List (String × String))
    (ka : List Char × List Char) :
    acceptKV acc (ka.1, ka.2.dropWhile isHSp) = acceptKV acc ka := by
  simp only [acceptKV]
  rw [stripChars_dropLead]

theorem autoScan_restricted (lines : List (List Char))
    (h : (lines.all (fun l =>
      match splitFirstColon l with
      | some ka => ka.1.isEmpty || !(ka.2.dropWhile isHSp).isEmpty
      | none => true)) = true)
    (acc : List (String × String)) :
    (autoScan none lines).foldl acceptKV acc =
      lines.foldl specLineStep acc := by
  induction lines generalizing acc with
  | nil => rfl
  | cons line rest ih =>
    rw [List.all_cons, Bool.and_eq_true] at h
    have hline := h.1
    have hrest := h.2
    rw [List.foldl_cons]
    cases hc : splitFirstColon line with
    | none =>
      have hstep : specLineStep acc line = acc := by
        unfold specLineStep
        rw [hc]
      rw [hstep]
      simp only [autoScan, hc]
      exact ih hrest acc
    | some ka =>
      rw [hc] at hline
      by_cases hk : ka.1.isEmpty
      · have hstep : specLineStep acc line = acc := by
          unfold specLineStep
          rw [hc]
          simp [hk]
        rw [hstep]
        simp only [autoScan, hc, hk, if_pos]
        exact ih hrest acc
      · have hv : (ka.2.dropWhile isHSp).isEmpty = false := by
          simp only [Bool.or_eq_true] at hline
          rcases hline with hemp | hne
          · exact absurd hemp hk
          · simpa using hne
        have hstep : specLineStep acc line = acceptKV acc ka := by
          unfold specLineStep
          rw [hc]
          simp [hk]
        rw [hstep]
        simp only [autoScan, hc, hk, hv, Bool.false_eq_true, if_neg,
          not_false_iff]
        rw [List.foldl_cons, ih hrest, acceptKV_dropLead]

/-- Claim C4 counterexample: in the text A-colon-1, then a bare A-colon line,
then A-colon-2, the last line carrying key A has trimmed value 2, yet the
code maps A to the whole following line A-colon-2: the whitespace class
after the colon in GENERIC_PATTERN also matches newlines, so the match
begun at the bare middle line swallows the next line as its value. The
claimed per-line reading gives A maps to 2 instead. -/
theorem claim_C4_counterexample :
    dget (autoFields cexText) "A" = some "A: 2" ∧
    dget (specAutoFields cexText) "A" = some "2" ∧
    ("A: 2" : String) ≠ "2" := by
  refine ⟨by decide, by decide, by decide⟩

/-- Claim C4 amended: on texts in which every line holding a colon preceded
by at least one character also has a non-blank character after that first
colon, auto-discovery behaves exactly as the claim states: a key-colon-value
line produces a field only when the trimmed key is shorter than 50
characters and the trimmed value non-empty, and the last occurrence of a
key wins. On other texts a match may continue onto a following line and
consume it. -/
theorem claim_C4_auto_discovery (text : String)
    (h : ((splitLs text.data).all (fun l =>
      match splitFirstColon l with
      | some ka => ka.1.isEmpty || !(ka.2.dropWhile isHSp).isEmpty
      | none => true)) = true) :
    autoFields text = specAutoFields text :=
  autoScan_restricted (splitLs text.data) h []

theorem claim_C4_witness :
    autoFields
        "Name: Alice\nTotal Amount Due For This Very Long Invoice Description Key: 99\nNope" =
      specAutoFields
        "Name: Alice\nTotal Amount Due For This Very Long Invoice Description Key: 99\nNope" :=
  claim_C4_auto_discovery
    "Name: Alice\nTotal Amount Due For This Very Long Invoice Description Key: 99\nNope"
    (by decide)

-- ---------------------------------------------------------------------------
-- Claim C8: generic lemmas about one-sided stripping.
-- ---------------------------------------------------------------------------

theorem dropWhileG_absorb {α : Type} (p q : α → Bool)
    (hpq : ∀ c, q c = true → p c = true) (l : List α) :
    (l.dropWhile q).dropWhile p = l.dropWhile p := by
  induction l with
  | nil => rfl
  | cons c cs ih =>
    by_cases hq : q c = true
    · rw [List.dropWhile_cons, if_pos hq, ih, List.dropWhile_cons,
        if_pos (hpq c hq)]
    · rw [List.dropWhile_cons, if_neg hq]

theorem dropWhileG_idem {α : Type} (p : α → Bool) (l : List α) :
    (l.dropWhile p).dropWhile p = l.dropWhile p :=
  dropWhileG_absorb p p (fun _ h => h) l

theorem dropTrailP_idem {α : Type} (p : α → Bool) (l : List α) :
    dropTrailP p (dropTrailP p l) = dropTrailP p l := by
  unfold dropTrailP
  rw [List.reverse_reverse, dropWhileG_idem]

theorem dropWhile_head_not {α : Type} (p : α → Bool) (l : List α) (x : α)
    (h : (l.dropWhile p).head? = some x) : p x = false := by
  induction l with
  | nil => cases h
  | cons c cs ih =>
    by_cases hc : p c = true
    · rw [List.dropWhile_cons, if_pos hc] at h
      exact ih h
    · rw [List.dropWhile_cons, if_neg hc] at h
      cases h
      exact Bool.eq_false_iff.mpr hc

theorem dropWhile_eq_self_of_head {α : Type} (p : α → Bool) (l : List α)
    (h : ∀ x, l.head? = some x → p x = false) : l.dropWhile p = l := by
  cases l with
  | nil => rfl
  | cons c cs =>
    rw [List.dropWhile_cons, if_neg]
    rw [h c rfl]
    exact Bool.false_ne_true

theorem head_not_of_dropWhile_eq_self {α : Type} (p : α → Bool) (l : List α)
    (h : l.dropWhile p = l) : ∀ x, l.head? = some x → p x = false := by
  intro x hx
  cases l with
  | nil => cases hx
  | cons c cs =>
    cases hx
    by_cases hc : p x = true
    · exfalso
      rw [List.dropWhile_cons, if_pos hc] at h
      have hlen : (cs.dropWhile p).length ≤ cs.length := by
        have := List.dropWhile_sublist (l := cs) p
        exact this.length_le
      rw [h] at hlen
      simp at hlen
    · exact Bool.eq_false_iff.mpr hc

theorem exists_dropWhile_suffix {α : Type} (p : α → Bool) (l : List α) :
    ∃ t, l = t ++ l.dropWhile p :=
  ⟨l.takeWhile p, (List.takeWhile_append_dropWhile p l).symm⟩

theorem exists_dropTrailP_append {α : Type} (p : α → Bool) (l : List α) :
    ∃ t, l = dropTrailP p l ++ t := by
  obtain ⟨t, ht⟩ := exists_dropWhile_suffix p l.reverse
  refine ⟨t.reverse, ?_⟩
  have := congrArg List.reverse ht
  rw [List.reverse_reverse, List.reverse_append] at this
  exact this

theorem mem_dropTrailP {α : Type} (p : α → Bool) (l : List α) (x : α)
    (h : x ∈ dropTrailP p l) : x ∈ l := by
  unfold dropTrailP at h
  rw [List.mem_reverse] at h
  have := (List.dropWhile_sublist (l := l.reverse) p).mem h
  rw [List.mem_reverse] at this
  exact this

theorem trailFree_dropWhile {α : Type} (p q : α → Bool) (l : List α)
    (h : dropTrailP p l = l) :
    dropTrailP p (l.dropWhile q) = l.dropWhile q := by
  have hrev : l.reverse.dropWhile p = l.reverse := by
    have h2 := congrArg List.reverse h
    rw [dropTrailP, List.reverse_reverse] at h2
    exact h2
  obtain ⟨t, ht⟩ := exists_dropWhile_suffix q l
  have hrevpre : l.reverse = (l.dropWhile q).reverse ++ t.reverse := by
    have h3 := congrArg List.reverse ht
    rw [List.reverse_append] at h3
    exact h3
  have hself :
      (l.dropWhile q).reverse.dropWhile p = (l.dropWhile q).reverse := by
    apply dropWhile_eq_self_of_head
    intro x hx
    apply head_not_of_dropWhile_eq_self p l.reverse hrev
    rw [hrevpre]
    cases hrq : (l.dropWhile q).reverse with
    | nil =>
      rw [hrq] at hx
      cases hx
    | cons y ys =>
      rw [hrq] at hx
      rw [List.cons_append]
      exact hx
  unfold dropTrailP
  rw [hself, List.reverse_reverse]

theorem leadFree_dropTrailP {α : Type} (p q : α → Bool) (l : List α)
    (h : l.dropWhile p = l) :
    (dropTrailP q l).dropWhile p = dropTrailP q l := by
  obtain ⟨t, ht⟩ := exists_dropTrailP_append q l
  cases hm : dropTrailP q l with
  | nil => rfl
  | cons c cs =>
    apply dropWhile_eq_self_of_head
    intro x hx
    apply head_not_of_dropWhile_eq_self p l h
    rw [ht, hm, List.cons_append]
    exact hx

-- ---------------------------------------------------------------------------
-- Claim C8: lemmas about space-run collapsing.
-- ---------------------------------------------------------------------------

theorem hasRun3_short (l : List Char) (h : l.length ≤ 2) :
    hasRun3 l = false := by
  match l with
  | [] => rfl
  | [_] => rfl
  | [_, _] => rfl
  | _ :: _ :: _ :: _ => simp at h

theorem hasRun3_tail (c : Char) (l : List Char)
    (h : hasRun3 (c :: l) = false) : hasRun3 l = false := by
  match l with
  | [] => rfl
  | [_] => rfl
  | b :: d :: r =>
    unfold hasRun3 at h
    exact (Bool.or_eq_false_iff.mp h).2

theorem hasRun3_cons_true (c : Char) (l : List Char)
    (h : hasRun3 l = true) : hasRun3 (c :: l) = true := by
  match l with
  | [] => cases h
  | [_] => cases h
  | b :: d :: r =>
    unfold hasRun3
    rw [h]
    exact Bool.or_true _

theorem hasRun3_append_right (xs ys : List Char)
    (h : hasRun3 xs = true) : hasRun3 (xs ++ ys) = true := by
  induction xs with
  | nil => cases h
  | cons a t ih =>
    match t, h with
    | [], h => cases h
    | [_], h => cases h
    | b :: c :: r, h =>
      simp only [hasRun3, Bool.or_eq_true] at h
      rcases h with h1 | h2
      · show hasRun3 (a :: b :: c :: (r ++ ys)) = true
        simp [hasRun3, h1]
      · have := ih h2
        show hasRun3 (a :: ((b :: c :: r) ++ ys)) = true
        exact hasRun3_cons_true a _ this

theorem hasRun3_append_left (xs ys : List Char)
    (h : hasRun3 ys = true) : hasRun3 (xs ++ ys) = true := by
  induction xs with
  | nil => exact h
  | cons a t ih => exact hasRun3_cons_true a _ ih

theorem hasRun3_append_split (xs ys : List Char)
    (h : hasRun3 (xs ++ ys) = false) :
    hasRun3 xs = false ∧ hasRun3 ys = false := by
  constructor
  · cases hx : hasRun3 xs with
    | false => rfl
    | true =>
      rw [hasRun3_append_right xs ys hx] at h
      cases h
  · cases hy : hasRun3 ys with
    | false => rfl
    | true =>
      rw [hasRun3_append_left xs ys hy] at h
      cases h

theorem hasRun3_cons_nonhsp (c : Char) (l : List Char)
    (hc : isHSp c = false) : hasRun3 (c :: l) = hasRun3 l := by
  match l with
  | [] => rfl
  | [_] => rfl
  | b :: d :: r => simp [hasRun3, hc]

theorem hasRun3_cons_cons_nonhsp (a c : Char) (l : List Char)
    (hc : isHSp c = false) : hasRun3 (a :: c :: l) = hasRun3 l := by
  match l with
  | [] => rfl
  | [x] => simp [hasRun3, hc]
  | d :: x :: r => simp [hasRun3, hc, hasRun3_cons_nonhsp c (d :: x :: r) hc]

theorem hasRun3_sandwich (pfx : List Char) (c : Char) (l : List Char)
    (hp : pfx.length ≤ 2) (hc : isHSp c = false) :
    hasRun3 (pfx ++ c :: l) = hasRun3 l := by
  match pfx, hp with
  | [], _ => exact hasRun3_cons_nonhsp c l hc
  | [a], _ => exact hasRun3_cons_cons_nonhsp a c l hc
  | [a, b], _ =>
    show hasRun3 (a :: b :: c :: l) = hasRun3 l
    have h2 := hasRun3_cons_cons_nonhsp b c l hc
    simp [hasRun3, hc, h2]
  | _ :: _ :: _ :: _, hp => simp at hp

theorem emitRun_short (pend : List Char) : (emitRun pend).length ≤ 2 := by
  unfold emitRun
  split
  · simp
  · omega

theorem emitRun_all_or_space (pend : List Char) (c : Char)
    (h : c ∈ emitRun pend) : c ∈ pend ∨ c = ' ' := by
  unfold emitRun at h
  split at h
  · right
    exact List.mem_singleton.mp h
  · left
    exact h

theorem allHsp_long_run (pend : List Char) (hall : pend.all isHSp = true)
    (hlen : 3 ≤ pend.length) : hasRun3 pend = true := by
  match pend, hlen with
  | a :: b :: c :: r, _ =>
    simp only [List.all_cons, Bool.and_eq_true] at hall
    show hasRun3 (a :: b :: c :: r) = true
    simp [hasRun3, hall.1, hall.2.1, hall.2.2.1]

theorem collapseAux_cons (pend : List Char) (c : Char) (cs : List Char) :
    collapseAux pend (c :: cs) =
      if isHSp c = true then collapseAux (pend ++ [c]) cs
      else emitRun pend ++ c :: collapseAux [] cs := rfl

theorem collapseAux_noRun (rest pend : List Char)
    (hall : pend.all isHSp = true) :
    hasRun3 (collapseAux pend rest) = false := by
  induction rest generalizing pend with
  | nil =>
    show hasRun3 (emitRun pend) = false
    exact hasRun3_short _ (emitRun_short pend)
  | cons c cs ih =>
    rw [collapseAux_cons]
    cases hc : isHSp c with
    | true =>
      simp only [if_pos]
      apply ih
      rw [List.all_append, hall]
      simp [hc]
    | false =>
      simp only [Bool.false_eq_true, if_neg, not_false_iff]
      rw [hasRun3_sandwich (emitRun pend) c _ (emitRun_short pend) hc]
      exact ih [] rfl

theorem collapse3_noRun (l : List Char) : hasRun3 (collapse3 l) = false :=
  collapseAux_noRun l [] rfl

theorem collapseAux_id (rest pend : List Char)
    (hall : pend.all isHSp = true)
    (hr : hasRun3 (pend ++ rest) = false) :
    collapseAux pend rest = pend ++ rest := by
  induction rest generalizing pend with
  | nil =>
    show emitRun pend = pend ++ []
    rw [List.append_nil]
    unfold emitRun
    split
    case isTrue hlen =>
      rw [List.append_nil] at hr
      rw [allHsp_long_run pend hall hlen] at hr
      cases hr
    case isFalse hlen => rfl
  | cons c cs ih =>
    rw [collapseAux_cons]
    cases hc : isHSp c with
    | true =>
      simp only [if_pos]
      have hall2 : (pend ++ [c]).all isHSp = true := by
        rw [List.all_append, hall]
        simp [hc]
      have hr2 : hasRun3 ((pend ++ [c]) ++ cs) = false := by
        rw [List.append_assoc]
        simpa using hr
      rw [ih (pend ++ [c]) hall2 hr2, List.append_assoc]
      rfl
    | false =>
      simp only [Bool.false_eq_true, if_neg, not_false_iff]
      have hpend : pend.length ≤ 2 := by
        by_contra hlen
        have h3 : 3 ≤ pend.length := by omega
        have hrt := hasRun3_append_right pend (c :: cs)
          (allHsp_long_run pend hall h3)
        rw [hrt] at hr
        cases hr
      have hemit : emitRun pend = pend := by
        unfold emitRun
        split
        case isTrue hlen => omega
        case isFalse hlen => rfl
      have hcs : hasRun3 cs = false := by
        have h1 := (hasRun3_append_split pend (c :: cs) hr).2
        exact hasRun3_tail c cs h1
      rw [hemit, ih [] rfl (by simpa using hcs)]
      rfl

theorem collapse3_id (l : List Char) (h : hasRun3 l = false) :
    collapse3 l = l := by
  have h2 := collapseAux_id l [] rfl (by simpa using h)
  simpa using h2

-- ---------------------------------------------------------------------------
-- Claim C8: lemmas about lineNorm.
-- ---------------------------------------------------------------------------

theorem run_free_dropWhile (q : Char → Bool) (l : List Char)
    (h : hasRun3 l = false) : hasRun3 (l.dropWhile q) = false := by
  obtain ⟨t, ht⟩ := exists_dropWhile_suffix q l
  rw [ht] at h
  exact (hasRun3_append_split t _ h).2

theorem run_free_dropTrail (q : Char → Bool) (l : List Char)
    (h : hasRun3 l = false) : hasRun3 (dropTrailP q l) = false := by
  obtain ⟨t, ht⟩ := exists_dropTrailP_append q l
  rw [ht] at h
  exact (hasRun3_append_split _ t h).1

theorem lineNorm_noRun (l : List Char) : hasRun3 (lineNorm l) = false := by
  unfold lineNorm
  exact run_free_dropWhile _ _ (run_free_dropTrail _ _ (collapse3_noRun _))

theorem lineNorm_trailFree (l : List Char) :
    dropTrailP isHSp (lineNorm l) = lineNorm l := by
  unfold lineNorm
  exact trailFree_dropWhile isHSp isHSp _ (dropTrailP_idem isHSp _)

theorem lineNorm_leadFree (l : List Char) :
    (lineNorm l).dropWhile isHSp = lineNorm l := by
  unfold lineNorm
  exact dropWhileG_idem isHSp _

theorem lineNorm_idem (l : List Char) :
    lineNorm (lineNorm l) = lineNorm l := by
  show (dropTrailP isHSp
      (collapse3 (dropTrailP isHSp (lineNorm l)))).dropWhile isHSp =
    lineNorm l
  rw [lineNorm_trailFree, collapse3_id _ (lineNorm_noRun l),
    lineNorm_trailFree, lineNorm_leadFree]

theorem collapseAux_mem (rest pend : List Char) (c : Char)
    (h : c ∈ collapseAux pend rest) : c ∈ pend ∨ c ∈ rest ∨ c = ' ' := by
  induction rest generalizing pend with
  | nil =>
    rcases emitRun_all_or_space pend c h with h1 | h2
    · exact Or.inl h1
    · exact Or.inr (Or.inr h2)
  | cons d ds ih =>
    rw [collapseAux_cons] at h
    cases hd : isHSp d with
    | true =>
      rw [hd] at h
      simp only [if_pos] at h
      rcases ih (pend ++ [d]) h with h1 | h2 | h3
      · rcases List.mem_append.mp h1 with h4 | h5
        · exact Or.inl h4
        · exact Or.inr (Or.inl (by simp [List.mem_singleton.mp h5]))
      · exact Or.inr (Or.inl (List.mem_cons_of_mem d h2))
      · exact Or.inr (Or.inr h3)
    | false =>
      rw [hd] at h
      simp only [Bool.false_eq_true, if_neg, not_false_iff] at h
      rcases List.mem_append.mp h with h1 | h2
      · rcases emitRun_all_or_space pend c h1 with h3 | h4
        · exact Or.inl h3
        · exact Or.inr (Or.inr h4)
      · rcases List.mem_cons.mp h2 with h3 | h4
        · exact Or.inr (Or.inl (by simp [h3]))
        · rcases ih [] h4 with h5 | h6 | h7
          · cases h5
          · exact Or.inr (Or.inl (List.mem_cons_of_mem d h6))
          · exact Or.inr (Or.inr h7)

theorem lineNorm_mem (l : List Char) (c : Char) (h : c ∈ lineNorm l) :
    c ∈ l ∨ c = ' ' := by
  unfold lineNorm at h
  have h1 := (List.dropWhile_sublist isHSp).mem h
  have h2 := mem_dropTrailP isHSp _ c h1
  rcases collapseAux_mem _ [] c h2 with h3 | h4 | h5
  · cases h3
  · exact Or.inl (mem_dropTrailP isHSp l c h4)
  · exact Or.inr h5

theorem lineNorm_nl_free (l : List Char) (h : ¬ '\n' ∈ l) :
    ¬ '\n' ∈ lineNorm l := by
  intro hc
  rcases lineNorm_mem l '\n' hc with h1 | h2
  · exact h h1
  · exact absurd h2 (by decide)

-- ---------------------------------------------------------------------------
-- Claim C8: lemmas about line splitting and joining.
-- ---------------------------------------------------------------------------

theorem splitLs_ne_nil (l : List Char) : splitLs l ≠ [] := by
  cases l with
  | nil => simp [splitLs]
  | cons c cs =>
    by_cases hc : c = '\n'
    · simp [splitLs, hc]
    · simp only [splitLs, hc, if_neg, not_false_iff]
      cases splitLs cs <;> simp

theorem mem_splitLs_nl_free (l : List Char) :
    ∀ m ∈ splitLs l, ¬ '\n' ∈ m := by
  induction l with
  | nil =>
    intro m hm
    rw [List.mem_singleton.mp hm]
    simp
  | cons c cs ih =>
    by_cases hc : c = '\n'
    · intro m hm
      simp only [splitLs, hc, if_pos] at hm
      rcases List.mem_cons.mp hm with h1 | h2
      · rw [h1]
        simp
      · exact ih m h2
    · intro m hm
      simp only [splitLs, hc, if_neg, not_false_iff] at hm
      cases hs : splitLs cs with
      | nil => exact absurd hs (splitLs_ne_nil cs)
      | cons x xs =>
        rw [hs] at hm
        rcases List.mem_cons.mp hm with h1 | h2
        · rw [h1]
          intro hmem
          rcases List.mem_cons.mp hmem with h3 | h4
          · exact hc h3.symm
          · exact ih x (hs ▸ List.mem_cons_self x xs) h4
        · exact ih m (hs ▸ List.mem_cons_of_mem x h2)

theorem splitLs_single (l : List Char) (h : ¬ '\n' ∈ l) :
    splitLs l = [l] := by
  induction l with
  | nil => rfl
  | cons c cs ih =>
    have hc : ¬ c = '\n' := fun hh => h (hh ▸ List.mem_cons_self c cs)
    have htail : ¬ '\n' ∈ cs := fun hh => h (List.mem_cons_of_mem c hh)
    simp only [splitLs, hc, if_neg, not_false_iff]
    rw [ih htail]

theorem splitLs_append_nl (l rest : List Char) (h : ¬ '\n' ∈ l) :
    splitLs (l ++ '\n' :: rest) = l :: splitLs rest := by
  induction l with
  | nil => simp [splitLs]
  | cons c cs ih =>
    have hc : ¬ c = '\n' := fun hh => h (hh ▸ List.mem_cons_self c cs)
    have htail : ¬ '\n' ∈ cs := fun hh => h (List.mem_cons_of_mem c hh)
    rw [List.cons_append]
    simp only [splitLs, hc, if_neg, not_false_iff]
    rw [ih htail]

theorem splitLs_joinLs (L : List (List Char))
    (hnl : ∀ m ∈ L, ¬ '\n' ∈ m) (hne : L ≠ []) :
    splitLs (joinLs L) = L := by
  induction L with
  | nil => exact absurd rfl hne
  | cons l rest ih =>
    cases rest with
    | nil =>
      show splitLs (joinLs [l]) = [l]
      exact splitLs_single l (hnl l (List.mem_cons_self l []))
    | cons l2 r2 =>
      show splitLs (l ++ '\n' :: joinLs (l2 :: r2)) = l :: l2 :: r2
      rw [splitLs_append_nl l _ (hnl l (List.mem_cons_self l _))]
      rw [ih (fun m hm => hnl m (List.mem_cons_of_mem l hm)) (by simp)]

-- ---------------------------------------------------------------------------
-- Claim C8: lemmas about blank-line collapsing.
-- ---------------------------------------------------------------------------

theorem adjBlank_cons2 (x y : List Char) (t : List (List Char)) :
    adjBlank (x :: y :: t) = ((x.isEmpty && y.isEmpty) || adjBlank (y :: t)) :=
  rfl

theorem collapseBlanks_cons2 (a b : List Char) (r : List (List Char)) :
    collapseBlanks (a :: b :: r) =
      if a.isEmpty && b.isEmpty then collapseBlanks (b :: r)
      else a :: collapseBlanks (b :: r) := rfl

theorem cb_mem (L : List (List Char)) (m : List Char)
    (h : m ∈ collapseBlanks L) : m ∈ L := by
  induction L with
  | nil => cases h
  | cons a rest ih =>
    cases rest with
    | nil => exact h
    | cons b r =>
      rw [collapseBlanks_cons2] at h
      split at h
      · exact List.mem_cons_of_mem a (ih h)
      · rcases List.mem_cons.mp h with h1 | h2
        · exact h1 ▸ List.mem_cons_self a (b :: r)
        · exact List.mem_cons_of_mem a (ih h2)

theorem cb_head_nonempty (b : List Char) (r : List (List Char))
    (hb : b.isEmpty = false) :
    ∃ t, collapseBlanks (b :: r) = b :: t := by
  cases r with
  | nil => exact ⟨[], rfl⟩
  | cons c r2 =>
    rw [collapseBlanks_cons2]
    rw [hb]
    simp only [Bool.false_and, Bool.false_eq_true, if_neg, not_false_iff]
    exact ⟨collapseBlanks (c :: r2), rfl⟩

theorem cb_noAdj (L : List (List Char)) :
    adjBlank (collapseBlanks L) = false := by
  induction L with
  | nil => rfl
  | cons a rest ih =>
    cases rest with
    | nil => rfl
    | cons b r =>
      rw [collapseBlanks_cons2]
      by_cases hab : (a.isEmpty && b.isEmpty) = true
      · rw [hab]
        simp only [if_pos]
        exact ih
      · have hab2 : (a.isEmpty && b.isEmpty) = false :=
          Bool.eq_false_iff.mpr hab
        rw [hab2]
        simp only [Bool.false_eq_true, if_neg, not_false_iff]
        by_cases ha : a.isEmpty = true
        · have hb : b.isEmpty = false := by
            cases hb2 : b.isEmpty with
            | false => rfl
            | true =>
              rw [ha, hb2] at hab
              exact absurd rfl hab
          obtain ⟨t, ht⟩ := cb_head_nonempty b r hb
          rw [ht, adjBlank_cons2, hb, ← ht]
          simp [ih]
        · have ha2 : a.isEmpty = false := Bool.eq_false_iff.mpr ha
          cases hM : collapseBlanks (b :: r) with
          | nil => rfl
          | cons x t =>
            rw [adjBlank_cons2, ha2, ← hM]
            simp [ih]

theorem cb_id (L : List (List Char)) (h : adjBlank L = false) :
    collapseBlanks L = L := by
  induction L with
  | nil => rfl
  | cons a rest ih =>
    cases rest with
    | nil => rfl
    | cons b r =>
      rw [adjBlank_cons2] at h
      have hsplit := Bool.or_eq_false_iff.mp h
      rw [collapseBlanks_cons2, hsplit.1]
      simp only [Bool.false_eq_true, if_neg, not_false_iff]
      rw [ih hsplit.2]

theorem adj_cons_true (x : List Char) (m : List (List Char))
    (h : adjBlank m = true) : adjBlank (x :: m) = true := by
  cases m with
  | nil => cases h
  | cons y t =>
    rw [adjBlank_cons2, h]
    exact Bool.or_true _

theorem adj_append_right (xs ys : List (List Char))
    (h : adjBlank xs = true) : adjBlank (xs ++ ys) = true := by
  induction xs with
  | nil => cases h
  | cons a t ih =>
    cases t with
    | nil => cases h
    | cons b r =>
      rw [adjBlank_cons2] at h
      rcases Bool.or_eq_true_iff.mp h with h1 | h2
      · rw [List.cons_append, List.cons_append, adjBlank_cons2, h1]
        rfl
      · rw [List.cons_append]
        exact adj_cons_true a _ (ih h2)

theorem adj_append_left (xs ys : List (List Char))
    (h : adjBlank ys = true) : adjBlank (xs ++ ys) = true := by
  induction xs with
  | nil => exact h
  | cons a t ih => exact adj_cons_true a _ ih

theorem adj_append_split (xs ys : List (List Char))
    (h : adjBlank (xs ++ ys) = false) :
    adjBlank xs = false ∧ adjBlank ys = false := by
  constructor
  · cases hx : adjBlank xs with
    | false => rfl
    | true =>
      rw [adj_append_right xs ys hx] at h
      cases h
  · cases hy : adjBlank ys with
    | false => rfl
    | true =>
      rw [adj_append_left xs ys hy] at h
      cases h

theorem adjFree_dropWhile (q : List Char → Bool) (L : List (List Char))
    (h : adjBlank L = false) : adjBlank (L.dropWhile q) = false := by
  obtain ⟨t, ht⟩ := exists_dropWhile_suffix q L
  rw [ht] at h
  exact (adj_append_split t _ h).2

theorem adjFree_dropTrail (q : List Char → Bool) (L : List (List Char))
    (h : adjBlank L = false) : adjBlank (dropTrailP q L) = false := by
  obtain ⟨t, ht⟩ := exists_dropTrailP_append q L
  rw [ht] at h
  exact (adj_append_split _ t h).1

-- ---------------------------------------------------------------------------
-- Claim C8: idempotence of the normalizer.
-- ---------------------------------------------------------------------------

theorem normalizeL_idem (l : List Char) :
    normalizeL (normalizeL l) = normalizeL l := by
  by_cases hF : dropTrailP isEmptyL
      ((collapseBlanks ((splitLs l).map lineNorm)).dropWhile isEmptyL) = []
  · have h0 : normalizeL l = [] := by
      unfold normalizeL
      rw [hF]
      rfl
    rw [h0]
    rfl
  · have hmemF : ∀ m ∈ dropTrailP isEmptyL
        ((collapseBlanks ((splitLs l).map lineNorm)).dropWhile isEmptyL),
        ∃ y ∈ splitLs l, lineNorm y = m := by
      intro m hm
      have h1 := mem_dropTrailP isEmptyL _ m hm
      have h2 := (List.dropWhile_sublist isEmptyL).mem h1
      have h3 := cb_mem _ m h2
      obtain ⟨y, hy, hym⟩ := List.mem_map.mp h3
      exact ⟨y, hy, hym⟩
    have hnlF : ∀ m ∈ dropTrailP isEmptyL
        ((collapseBlanks ((splitLs l).map lineNorm)).dropWhile isEmptyL),
        ¬ '\n' ∈ m := by
      intro m hm
      obtain ⟨y, hy, hym⟩ := hmemF m hm
      rw [← hym]
      exact lineNorm_nl_free y (mem_splitLs_nl_free l y hy)
    have hlineF : ∀ m ∈ dropTrailP isEmptyL
        ((collapseBlanks ((splitLs l).map lineNorm)).dropWhile isEmptyL),
        lineNorm m = m := by
      intro m hm
      obtain ⟨y, hy, hym⟩ := hmemF m hm
      rw [← hym]
      exact lineNorm_idem y
    have hadjF : adjBlank (dropTrailP isEmptyL
        ((collapseBlanks ((splitLs l).map lineNorm)).dropWhile isEmptyL)) =
          false :=
      adjFree_dropTrail isEmptyL _
        (adjFree_dropWhile isEmptyL _ (cb_noAdj _))
    have hdwF : (dropTrailP isEmptyL
        ((collapseBlanks ((splitLs l).map lineNorm)).dropWhile
          isEmptyL)).dropWhile isEmptyL =
        dropTrailP isEmptyL
          ((collapseBlanks ((splitLs l).map lineNorm)).dropWhile isEmptyL) :=
      leadFree_dropTrailP isEmptyL isEmptyL _ (dropWhileG_idem isEmptyL _)
    have hdtF : dropTrailP isEmptyL (dropTrailP isEmptyL
        ((collapseBlanks ((splitLs l).map lineNorm)).dropWhile isEmptyL)) =
        dropTrailP isEmptyL
          ((collapseBlanks ((splitLs l).map lineNorm)).dropWhile isEmptyL) :=
      dropTrailP_idem isEmptyL _
    show joinLs (dropTrailP isEmptyL ((collapseBlanks
        ((splitLs (normalizeL l)).map lineNorm)).dropWhile isEmptyL)) =
      normalizeL l
    have hsplit : splitLs (normalizeL l) = dropTrailP isEmptyL
        ((collapseBlanks ((splitLs l).map lineNorm)).dropWhile isEmptyL) :=
      splitLs_joinLs _ hnlF hF
    rw [hsplit, List.map_congr_left hlineF, List.map_id', cb_id _ hadjF, hdwF,
      hdtF]
    rfl

/-- Claim C8: the TextNormalizer modelled from spec section 4.1 (src/main.py
contains no normalization step) is idempotent: normalizing twice gives the
same string as normalizing once, for every input string. -/
theorem claim_C8_normalize_idempotent (s : String) :
    normalizeText (normalizeText s) = normalizeText s :=
  congrArg String.mk (normalizeL_idem s.data)
